import Mathlib

/-!
# Verification of the go-choice terminal list picker

Shallow embedding of the selection / navigation / filtering state machine of
the go-choice repository.  `choice.go` (the later API, returning value + id)
is embedded as-is: `move`, `moveUp`, `moveDown`, `computePageSize`, and the
event loop of `pick`.  The older file (an earlier revision of the same
package) contributes the `render` windowing logic, embedded as `render`.
Go slices of pointers are modelled as `List Choice` with explicit positional
updates; the pointer mutations performed by `move` become the `modifySel` /
`reassemble` combinators, which rewrite exactly the slots the Go code writes
through.
-/

namespace GoChoice

/-- A choice entry: `Choice{Id, Value, Selected, hidden}` from `choice.go`. -/
structure Choice where
  id : Nat
  value : String
  selected : Bool
  hidden : Bool
  deriving Repr, DecidableEq

instance : Inhabited Choice := ⟨⟨0, "", false, false⟩⟩

/-- Result of `move`: either the updated choice list together with the
returned `*Choice` (`none` models a nil pointer), or the `panic` branch. -/
inductive MoveResult where
  | ok (cs : List Choice) (ret : Option Choice)
  | panicked
  deriving Repr, DecidableEq

/-- Session outcome: the loop is still running, or it terminated through a
confirm key, or through an abort key. -/
inductive Outcome where
  | pending
  | confirmed
  | aborted
  deriving Repr, DecidableEq

/-- Input events handled by the event loop of `pick` in `choice.go`. -/
inductive Event where
  | up
  | down
  | home
  | endKey
  | pgUp
  | pgDn
  | backspace
  | enter
  | right
  | escape
  | ctrlC
  | left
  | rune (c : Char)
  | resize
  deriving Repr, DecidableEq

/-- The mutable state owned by the event loop of `pick`:
the choice slice, the `selectedChoice` pointer and the search query,
plus the terminal outcome. -/
structure SessionState where
  choices : List Choice
  selectedChoice : Option Choice
  searchQuery : String
  outcome : Outcome
  deriving Repr, DecidableEq

/-- The errors `pick` can return. -/
inductive PickErr where
  | errNoChoice
  | errNoChoiceSelected
  deriving Repr, DecidableEq

/-! ## List helpers mirroring the pointer manipulation of the Go code -/

/-- Set the `selected` flag of the `i`-th entry (the write
`choicesNotHidden[i].Selected = b` through a slice of pointers). -/
def modifySel : List Choice → Nat → Bool → List Choice
  | [], _, _ => []
  | c :: cs, 0, b => { c with selected := b } :: cs
  | c :: cs, k + 1, b => c :: modifySel cs k b

/-- Index of the first entry whose `selected` flag is set (the scan
`for i, choice := range choicesNotHidden` in `move`). -/
def findSel : List Choice → Option Nat
  | [] => none
  | c :: cs => if c.selected then some 0 else (findSel cs).map (· + 1)

/-- Write an updated visible sublist back into the full list: the `k`-th
non-hidden slot of the result is the `k`-th entry of `vs`, hidden slots are
kept as they are.  This realises the fact that `choicesNotHidden` holds
pointers into the original slice. -/
def reassemble : List Choice → List Choice → List Choice
  | [], _ => []
  | c :: cs, vs =>
    if c.hidden then c :: reassemble cs vs
    else
      match vs with
      | v :: vs' => v :: reassemble cs vs'
      | [] => c :: reassemble cs []

/-- `p` occurs as a contiguous run at the start of `hay`. -/
def runAtStart : List Char → List Char → Bool
  | [], _ => true
  | _ :: _, [] => false
  | p :: ps, h :: hs => p == h && runAtStart ps hs

/-- `pat` occurs as a contiguous run somewhere in `hay`
(Go `strings.Contains hay pat`; the empty pattern always matches). -/
def hasSub : List Char → List Char → Bool
  | hay, pat =>
    if runAtStart pat hay then true
    else
      match hay with
      | [] => false
      | _ :: t => hasSub t pat

/-- `strings.Contains(v, q)`: `q` is a literal substring of `v`. -/
def strContains (v q : String) : Bool := hasSub v.toList q.toList

/-- `strings.Split(s, "\n")` over the characters of `s`: the pieces between
newline separators, in order (one piece, possibly empty, more than there
are newlines). -/
def splitOnNl : List Char → List (List Char)
  | [] => [[]]
  | c :: rest =>
    if c = '\n' then [] :: splitOnNl rest
    else
      match splitOnNl rest with
      | h :: t => (c :: h) :: t
      | [] => [[c]]

/-- The number of lines of the prompt:
`len(strings.Split(question, "\n"))`. -/
def questionLineCount (question : String) : Nat :=
  (splitOnNl question.toList).length

/-! ## Embedded source functions -/

/-- The first pass of `move`: hidden choices that carry the `Selected`
flag lose it (`if choice.Selected { choice.Selected = false }`). -/
def pass1 (cs : List Choice) : List Choice :=
  cs.map (fun c => if c.hidden then { c with selected := false } else c)

/-- The currently visible (non-hidden) choices, in list order
(`choicesNotHidden` in `move`). -/
def visList (cs : List Choice) : List Choice :=
  cs.filter (fun c => !c.hidden)

/-- The branch ladder of `move` once the scan has located the selected
entry at index `i` of the visible list `vis` (whose slots live inside
`base`): between the bounds, move to `i+increment`; at or above the length,
move to the last entry; at or below zero, move to the first; the trailing
`return choice` (no branch taken) leaves everything unchanged. -/
def moveScan (base vis : List Choice) (i : Nat) (increment : Int) :
    MoveResult :=
  if (i : Int) + increment < (vis.length : Int) ∧
      0 < (i : Int) + increment then
    .ok
      (reassemble base
        (modifySel (modifySel vis i false) ((i : Int) + increment).toNat true))
      ((modifySel (modifySel vis i false)
          ((i : Int) + increment).toNat true).get? ((i : Int) + increment).toNat)
  else if (vis.length : Int) ≤ (i : Int) + increment then
    .ok
      (reassemble base
        (modifySel (modifySel vis i false) (vis.length - 1) true))
      ((modifySel (modifySel vis i false) (vis.length - 1) true).get?
        (vis.length - 1))
  else if (i : Int) + increment ≤ 0 then
    .ok (reassemble base (modifySel (modifySel vis i false) 0 true))
      ((modifySel (modifySel vis i false) 0 true).head?)
  else
    .ok base (vis.get? i)

/-- `move(choices, increment)` from `choice.go`:
clear the selection of hidden entries while collecting the visible ones;
return nil on an empty visible list; recover by selecting the first visible
entry when none is selected; otherwise move the `Selected` flag from the
scan position `i` to `i+increment` clamped into the visible range, and
return the choice now selected.  The final `panic("Something went wrong")`
is the `.panicked` result. -/
def move (cs : List Choice) (increment : Int) : MoveResult :=
  if (visList (pass1 cs)).isEmpty then .ok (pass1 cs) none
  else if !((visList (pass1 cs)).any (fun c => c.selected)) then
    .ok (reassemble (pass1 cs) (modifySel (visList (pass1 cs)) 0 true))
      ((modifySel (visList (pass1 cs)) 0 true).head?)
  else
    match findSel (visList (pass1 cs)) with
    | some i => moveScan (pass1 cs) (visList (pass1 cs)) i increment
    | none => .panicked

/-- `moveUp(choices, step) = move(choices, -step)`. -/
def moveUp (cs : List Choice) (step : Int) : MoveResult := move cs (-step)

/-- `moveDown(choices, step) = move(choices, step)`. -/
def moveDown (cs : List Choice) (step : Int) : MoveResult := move cs step

/-- `computePageSize(screen, question)` from `choice.go`, with the screen
height passed explicitly: `if height > questionLines { height -=
questionLines + 1 }; return height`. -/
def computePageSize (height : Int) (question : String) : Int :=
  if (questionLineCount question : Int) < height then
    height - ((questionLineCount question : Int) + 1)
  else height

/-- Modelled from the spec: the later revision's `render` function is not
among the sources (only its call sites in `pick` are); per the spec it
recomputes every choice's hidden flag from the query on each call:
`hidden = !containsSubstring(value, query)`, a literal, case-respecting
substring test. -/
def applyQuery (cs : List Choice) (q : String) : List Choice :=
  cs.map (fun c => { c with hidden := !(strContains c.value q) })

/-- Construction of the choice slice in `pick`:
`Choice{Id: i, Value: choice, Selected: i == 0}` for the running index. -/
def mkChoicesAux : Nat → List String → List Choice
  | _, [] => []
  | i, x :: xs => ⟨i, x, i == 0, false⟩ :: mkChoicesAux (i + 1) xs

/-- The choice slice built by `pick` from the input list. -/
def mkChoices (xs : List String) : List Choice := mkChoicesAux 0 xs

/-- Fold a `move` result into the session state: `selectedChoice` takes the
returned pointer and the slice takes the in-place mutations.  The `panic`
case never occurs (`move_ne_panicked`); it is mapped to the unchanged
state. -/
def applyMove (s : SessionState) (r : MoveResult) : SessionState :=
  match r with
  | .ok cs ret => { s with choices := cs, selectedChoice := ret }
  | .panicked => s

/-- One iteration of the event loop of `pick` in `choice.go`, for a session
that is still pending.  Query edits re-render first (which, per the spec,
reapplies the filter) and then run `moveUp(choices, len(choices))`. -/
def step1 (height : Int) (question : String) (s : SessionState) :
    Event → SessionState
  | .up => applyMove s (moveUp s.choices 1)
  | .down => applyMove s (moveDown s.choices 1)
  | .home => applyMove s (moveUp s.choices (s.choices.length : Int))
  | .endKey => applyMove s (moveDown s.choices (s.choices.length : Int))
  | .pgUp => applyMove s (moveUp s.choices (computePageSize height question))
  | .pgDn => applyMove s (moveDown s.choices (computePageSize height question))
  | .backspace =>
    if s.searchQuery.length > 0 then
      applyMove
        { s with
          searchQuery := s.searchQuery.dropRight 1
          choices := applyQuery s.choices (s.searchQuery.dropRight 1) }
        (moveUp (applyQuery s.choices (s.searchQuery.dropRight 1))
          ((applyQuery s.choices (s.searchQuery.dropRight 1)).length : Int))
    else s
  | .enter => { s with outcome := .confirmed }
  | .right => { s with outcome := .confirmed }
  | .escape => { s with selectedChoice := none, outcome := .aborted }
  | .ctrlC => { s with selectedChoice := none, outcome := .aborted }
  | .left => { s with selectedChoice := none, outcome := .aborted }
  | .rune c =>
    applyMove
      { s with
        searchQuery := s.searchQuery.push c
        choices := applyQuery s.choices (s.searchQuery.push c) }
      (moveUp (applyQuery s.choices (s.searchQuery.push c))
        ((applyQuery s.choices (s.searchQuery.push c)).length : Int))
  | .resize => s

/-- The state at session start: choices built with ids `0..n-1`, entry 0
selected, empty query (`selectedChoice = choices[0]`). -/
def initState (xs : List String) : SessionState :=
  ⟨mkChoices xs, (mkChoices xs).head?, "", .pending⟩

/-- One loop turn: events are processed only while the session is pending. -/
def stepIf (height : Int) (question : String) (s : SessionState)
    (ev : Event) : SessionState :=
  if s.outcome = .pending then step1 height question s ev else s

/-- The session state after feeding a list of events to the loop. -/
def run (height : Int) (question : String) (xs : List String)
    (evs : List Event) : SessionState :=
  evs.foldl (stepIf height question) (initState xs)

/-- Extraction of `pick`'s return value once the loop has quit:
a nil `selectedChoice` yields `ErrNoChoiceSelected`, otherwise
`(selectedChoice.Value, selectedChoice.Id)`. -/
def pickReturn (s : SessionState) : Except PickErr (String × Nat) :=
  match s.selectedChoice with
  | none => .error .errNoChoiceSelected
  | some c => .ok (c.value, c.id)

/-- `pick` end to end: the empty-input guard, then the loop on the given
events, then result extraction. -/
def pickRun (height : Int) (question : String) (xs : List String)
    (evs : List Event) : Except PickErr (String × Nat) :=
  if xs.length = 0 then .error .errNoChoice
  else pickReturn (run height question xs evs)

/-! ## The older revision's `render` windowing (`src/unnamed/part_000`) -/

/-- The drawing loop of the old `render`: an option is skipped when
`option.Id <= (min+1)-maximumThatCanBeDisplayed && !(option.Id >
(min+1)-maximumThatCanBeDisplayed)`; drawn options occupy consecutive
line numbers. -/
def drawLoop (threshold : Int) : List Choice → Nat → List (Nat × Choice)
  | [], _ => []
  | o :: os, ln =>
    if (o.id : Int) ≤ threshold ∧ ¬((o.id : Int) > threshold) then
      drawLoop threshold os ln
    else (ln, o) :: drawLoop threshold os (ln + 1)

/-- The old `render`: question lines occupy rows `0..questionLines-1`; then
`min := selectedChoice.Id + len(questionLines)`, bumped by one when
`selectedChoice.Id > maximumThatCanBeDisplayed`; options are drawn from row
`questionLines` on, skipping ids at or below `(min+1) - height`.  Returns
the `(row, option)` pairs passed to `printText`. -/
def render (height : Int) (question : String) (options : List Choice)
    (selectedId : Int) : List (Nat × Choice) :=
  drawLoop
    ((if selectedId > height then
        selectedId + (questionLineCount question : Int) + 1
      else selectedId + (questionLineCount question : Int)) + 1 - height)
    options (questionLineCount question)

/-- The rows of `render` that land inside the terminal: `tcell.SetCell`
ignores writes at rows at or beyond the screen height. -/
def renderOnScreen (height : Int) (question : String) (options : List Choice)
    (selectedId : Int) : List (Nat × Choice) :=
  (render height question options selectedId).filter
    (fun p => (p.1 : Int) < height)

/-! ## Concrete fixtures used by witnesses -/

/-- Three visible choices with the middle one selected. -/
def sampleChoices : List Choice :=
  [⟨0, "a", false, false⟩, ⟨1, "b", true, false⟩, ⟨2, "c", false, false⟩]

/-- A hidden first choice; the selected choice is the first visible one. -/
def sampleHiddenChoices : List Choice :=
  [⟨0, "a", false, true⟩, ⟨1, "b", true, false⟩, ⟨2, "c", false, false⟩]

/-- Ten input strings, ids 0 through 9 after construction. -/
def tenValues : List String :=
  ["a", "b", "c", "d", "e", "f", "g", "h", "i", "j"]

/-! ## Helper lemmas: positional behaviour of the combinators -/

theorem length_modifySel (l : List Choice) (i : Nat) (b : Bool) :
    (modifySel l i b).length = l.length := by
  induction l generalizing i with
  | nil => rfl
  | cons c cs ih =>
    cases i with
    | zero => rfl
    | succ k => simp [modifySel, ih]

theorem get?_modifySel (l : List Choice) (i k : Nat) (b : Bool) :
    (modifySel l i b).get? k =
      if k = i then (l.get? k).map (fun c => { c with selected := b })
      else l.get? k := by
  induction l generalizing i k with
  | nil => simp [modifySel]
  | cons c cs ih =>
    cases i with
    | zero =>
      cases k with
      | zero => simp [modifySel]
      | succ k => simp [modifySel]
    | succ i =>
      cases k with
      | zero => simp [modifySel]
      | succ k =>
        have := ih i k
        simp only [modifySel, List.get?_cons_succ, this, Nat.succ_ne_zero,
          Nat.add_right_cancel_iff]

theorem length_mkChoicesAux (n : Nat) (xs : List String) :
    (mkChoicesAux n xs).length = xs.length := by
  induction xs generalizing n with
  | nil => rfl
  | cons x xs ih => simp [mkChoicesAux, ih]

theorem get?_mkChoicesAux (n : Nat) (xs : List String) (k : Nat) :
    (mkChoicesAux n xs).get? k =
      (xs.get? k).map (fun x => ⟨n + k, x, (n + k) == 0, false⟩) := by
  induction xs generalizing n k with
  | nil => simp [mkChoicesAux]
  | cons x xs ih =>
    cases k with
    | zero => simp [mkChoicesAux]
    | succ k =>
      have := ih (n + 1) k
      simp only [mkChoicesAux, List.get?_cons_succ, this]
      have harith : n + 1 + k = n + (k + 1) := by omega
      rw [harith]

theorem visList_pass1 (cs : List Choice) : visList (pass1 cs) = visList cs := by
  induction cs with
  | nil => rfl
  | cons c cs ih =>
    by_cases hc : c.hidden
    · simp [visList, pass1, List.filter_cons, hc] at ih ⊢
      exact ih
    · simp [visList, pass1, List.filter_cons, hc] at ih ⊢
      exact ih

theorem length_pass1 (cs : List Choice) : (pass1 cs).length = cs.length := by
  simp [pass1]

theorem get?_pass1 (cs : List Choice) (k : Nat) :
    (pass1 cs).get? k =
      (cs.get? k).map
        (fun c => if c.hidden then { c with selected := false } else c) := by
  simp [pass1, List.get?_map]

/-- Fields other than `selected` agree. -/
def SameShape (a b : Choice) : Prop :=
  a.id = b.id ∧ a.value = b.value ∧ a.hidden = b.hidden

/-- What `reassemble` guarantees slot by slot: shape is preserved and
hidden slots are kept verbatim. -/
def ReaRel (a b : Choice) : Prop :=
  a.id = b.id ∧ a.value = b.value ∧ a.hidden = b.hidden ∧
    (a.hidden = true → b = a)

theorem reassemble_spec (cs : List Choice) :
    ∀ vs : List Choice, List.Forall₂ SameShape (visList cs) vs →
      List.Forall₂ ReaRel cs (reassemble cs vs) ∧
        visList (reassemble cs vs) = vs := by
  induction cs with
  | nil =>
    intro vs h
    have hv : visList ([] : List Choice) = [] := rfl
    rw [hv] at h
    cases h
    exact ⟨List.Forall₂.nil, rfl⟩
  | cons c cs ih =>
    intro vs h
    by_cases hc : c.hidden
    · have hv : visList (c :: cs) = visList cs := by
        simp [visList, List.filter_cons, hc]
      rw [hv] at h
      obtain ⟨h1, h2⟩ := ih vs h
      have hre : reassemble (c :: cs) vs = c :: reassemble cs vs := by
        simp [reassemble, hc]
      refine ⟨?_, ?_⟩
      · rw [hre]
        exact List.Forall₂.cons ⟨rfl, rfl, rfl, fun _ => rfl⟩ h1
      · rw [hre]
        simpa [visList, List.filter_cons, hc] using h2
    · have hv : visList (c :: cs) = c :: visList cs := by
        simp [visList, List.filter_cons, hc]
      rw [hv] at h
      cases h with
      | cons hcv h' =>
        rename_i v vs'
        obtain ⟨h1, h2⟩ := ih vs' h'
        have hre : reassemble (c :: cs) (v :: vs') = v :: reassemble cs vs' := by
          simp [reassemble, hc]
        have hchid : c.hidden = false := by simpa using hc
        have hvhid : v.hidden = false := by rw [← hcv.2.2]; exact hchid
        refine ⟨?_, ?_⟩
        · rw [hre]
          refine List.Forall₂.cons ⟨hcv.1, hcv.2.1, hcv.2.2, ?_⟩ h1
          intro hcontra
          exact absurd hcontra hc
        · rw [hre]
          simpa [visList, List.filter_cons, hvhid] using h2

theorem forall₂_get?_imp {R : Choice → Choice → Prop} {l₁ l₂ : List Choice}
    (h : List.Forall₂ R l₁ l₂) :
    ∀ k a b, l₁.get? k = some a → l₂.get? k = some b → R a b := by
  induction h with
  | nil => intro k a b h1 _; simp at h1
  | cons hr _ ih =>
    intro k a b h1 h2
    cases k with
    | zero =>
      simp only [List.get?_cons_zero, Option.some_inj] at h1 h2
      rw [← h1, ← h2]
      exact hr
    | succ k =>
      exact ih k a b (by simpa using h1) (by simpa using h2)

theorem forall₂_of_get? {R : Choice → Choice → Prop} :
    ∀ (l₁ l₂ : List Choice), l₁.length = l₂.length →
      (∀ k a b, l₁.get? k = some a → l₂.get? k = some b → R a b) →
      List.Forall₂ R l₁ l₂ := by
  intro l₁
  induction l₁ with
  | nil =>
    intro l₂ hl _
    cases l₂ with
    | nil => exact List.Forall₂.nil
    | cons b l₂ => simp at hl
  | cons a l ih =>
    intro l₂ hl hk
    cases l₂ with
    | nil => simp at hl
    | cons b l₂ =>
      refine List.Forall₂.cons (hk 0 a b rfl rfl) ?_
      exact ih l₂ (by simpa using hl)
        (fun k x y h1 h2 => hk (k + 1) x y (by simpa using h1) (by simpa using h2))

theorem findSel_eq_some (l : List Choice) (i : Nat) (hi : i < l.length)
    (h : ∀ k c, l.get? k = some c → (c.selected = true ↔ k = i)) :
    findSel l = some i := by
  induction l generalizing i with
  | nil => simp at hi
  | cons c cs ih =>
    cases i with
    | zero =>
      have hc : c.selected = true := (h 0 c rfl).2 rfl
      simp [findSel, hc]
    | succ i =>
      have hc : ¬(c.selected = true) := by
        intro hs
        exact Nat.succ_ne_zero i ((h 0 c rfl).1 hs).symm
      have htail : findSel cs = some i := by
        refine ih i (by simpa using Nat.lt_of_succ_lt_succ hi) ?_
        intro k d hk
        have := h (k + 1) d (by simpa using hk)
        constructor
        · intro hs
          exact Nat.succ_injective (this.1 hs)
        · intro hk'
          exact this.2 (by omega)
      simp [findSel, hc, htail]

theorem findSel_isSome_of_any (l : List Choice)
    (h : l.any (fun c => c.selected) = true) : ∃ i, findSel l = some i := by
  induction l with
  | nil => simp at h
  | cons c cs ih =>
    by_cases hc : c.selected = true
    · exact ⟨0, by simp [findSel, hc]⟩
    · simp only [List.any_cons, Bool.or_eq_true] at h
      have h' : cs.any (fun c => c.selected) = true := by
        rcases h with h | h
        · exact absurd h hc
        · exact h
      obtain ⟨i, hi⟩ := ih h'
      exact ⟨i + 1, by simp [findSel, hc, hi]⟩

theorem countP_sel_of_unique (l : List Choice) (i : Nat) (hi : i < l.length)
    (h : ∀ k c, l.get? k = some c → (c.selected = true ↔ k = i)) :
    l.countP (fun c => c.selected) = 1 := by
  induction l generalizing i with
  | nil => simp at hi
  | cons c cs ih =>
    rw [List.countP_cons]
    cases i with
    | zero =>
      have hc : c.selected = true := (h 0 c rfl).2 rfl
      have h0 : cs.countP (fun c => c.selected) = 0 := by
        rw [List.countP_eq_zero]
        intro a ha
        obtain ⟨k, hk⟩ := List.mem_iff_get?.1 ha
        intro hs
        exact Nat.succ_ne_zero k ((h (k + 1) a (by simpa using hk)).1 hs)
      simp [hc, h0]
    | succ i =>
      have hc : ¬(c.selected = true) := by
        intro hs
        exact Nat.succ_ne_zero i ((h 0 c rfl).1 hs).symm
      have h1 : cs.countP (fun c => c.selected) = 1 := by
        refine ih i (by simpa using Nat.lt_of_succ_lt_succ hi) ?_
        intro k d hk
        have := h (k + 1) d (by simpa using hk)
        constructor
        · intro hs
          exact Nat.succ_injective (this.1 hs)
        · intro hk'
          exact this.2 (by omega)
      simp [hc, h1]

theorem unique_of_countP_one (l : List Choice)
    (h : l.countP (fun c => c.selected) = 1) :
    ∃ i, i < l.length ∧
      ∀ k c, l.get? k = some c → (c.selected = true ↔ k = i) := by
  induction l with
  | nil => simp [List.countP_nil] at h
  | cons c cs ih =>
    rw [List.countP_cons] at h
    by_cases hc : c.selected = true
    · have h0 : cs.countP (fun c => c.selected) = 0 := by
        rw [if_pos hc] at h
        omega
      refine ⟨0, Nat.succ_pos _, ?_⟩
      intro k d hk
      cases k with
      | zero =>
        simp only [List.get?_cons_zero, Option.some_inj] at hk
        rw [← hk]
        simp [hc]
      | succ k =>
        have hd : d ∈ cs := List.get?_mem (by simpa using hk)
        have hns := List.countP_eq_zero.1 h0 d hd
        constructor
        · intro hs; exact absurd hs hns
        · intro h0'; exact absurd h0' (Nat.succ_ne_zero k)
    · have h1 : cs.countP (fun c => c.selected) = 1 := by
        simp [hc] at h
        exact h
      obtain ⟨i, hi, hu⟩ := ih h1
      refine ⟨i + 1, by simpa using Nat.succ_lt_succ hi, ?_⟩
      intro k d hk
      cases k with
      | zero =>
        simp only [List.get?_cons_zero, Option.some_inj] at hk
        rw [← hk]
        constructor
        · intro hs; exact absurd hs hc
        · intro h0; exact absurd h0.symm (Nat.succ_ne_zero i)
      | succ k =>
        have := hu k d (by simpa using hk)
        constructor
        · intro hs; exact congrArg Nat.succ (this.1 hs)
        · intro hk'; exact this.2 (Nat.succ_injective hk')

theorem countP_sel_vis_le (cs : List Choice) :
    (visList cs).countP (fun c => c.selected) ≤
      cs.countP (fun c => c.selected) := by
  rw [visList, List.countP_filter]
  exact List.countP_mono_left (fun a _ h => by
    exact (Bool.and_eq_true _ _ ▸ h).1)

theorem countP_sel_eq_vis (cs : List Choice)
    (h : ∀ c ∈ cs, c.hidden = true → c.selected = false) :
    cs.countP (fun c => c.selected) =
      (visList cs).countP (fun c => c.selected) := by
  rw [visList, List.countP_filter]
  refine List.countP_congr ?_
  intro c hc
  constructor
  · intro hs
    cases hh : c.hidden
    · simp [hs, hh]
    · exact absurd hs (by simp [h c hc hh])
  · intro hs
    exact (Bool.and_eq_true _ _ ▸ hs).1

theorem countP_sel_applyQuery (cs : List Choice) (q : String) :
    (applyQuery cs q).countP (fun c => c.selected) =
      cs.countP (fun c => c.selected) := by
  rw [applyQuery, List.countP_map]
  rfl

/-! ## The clamped-move characterisation of `move` -/

/-- `i + increment` clamped into `[0, L-1]`, as a natural index. -/
def clampIdx (L : Nat) (t : Int) : Nat := (max 0 (min t ((L : Int) - 1))).toNat

theorem clampIdx_lt (L : Nat) (t : Int) (hL : 0 < L) : clampIdx L t < L := by
  unfold clampIdx
  omega

/-- Everything a successful `move` guarantees when the new selection lands
on visible index `j`: length and per-slot shape preservation of the full
list, no hidden entry selected, the visible list keeps its length and its
shape, and its `selected` flags are set exactly at `j`. -/
def MovedTo (cs cs' : List Choice) (j : Nat) : Prop :=
  cs'.length = cs.length ∧
  (∀ k a b, cs.get? k = some a → cs'.get? k = some b →
    b.id = a.id ∧ b.value = a.value ∧ b.hidden = a.hidden) ∧
  (∀ c ∈ cs', c.hidden = true → c.selected = false) ∧
  (visList cs').length = (visList cs).length ∧
  (∀ k c, (visList cs').get? k = some c → (c.selected = true ↔ k = j)) ∧
  (∀ k a b, (visList cs).get? k = some a → (visList cs').get? k = some b →
    b.id = a.id ∧ b.value = a.value)

theorem moveScan_eq (base vis : List Choice) (i : Nat) (inc : Int)
    (hi : i < vis.length) :
    moveScan base vis i inc =
      .ok
        (reassemble base
          (modifySel (modifySel vis i false)
            (clampIdx vis.length ((i : Int) + inc)) true))
        ((modifySel (modifySel vis i false)
            (clampIdx vis.length ((i : Int) + inc)) true).get?
          (clampIdx vis.length ((i : Int) + inc))) := by
  unfold moveScan
  by_cases h1 : (i : Int) + inc < (vis.length : Int) ∧ 0 < (i : Int) + inc
  · rw [if_pos h1]
    have hj : clampIdx vis.length ((i : Int) + inc) = ((i : Int) + inc).toNat := by
      unfold clampIdx
      omega
    rw [hj]
  · rw [if_neg h1]
    by_cases h2 : (vis.length : Int) ≤ (i : Int) + inc
    · rw [if_pos h2]
      have hj : clampIdx vis.length ((i : Int) + inc) = vis.length - 1 := by
        unfold clampIdx
        omega
      rw [hj]
    · rw [if_neg h2]
      have h3 : (i : Int) + inc ≤ 0 := by omega
      rw [if_pos h3]
      have hj : clampIdx vis.length ((i : Int) + inc) = 0 := by
        unfold clampIdx
        omega
      rw [hj, List.get?_zero]

/-- When a shape-compatible update `v2` of the visible list is written back
into the (pass-one processed) full list, the result satisfies `MovedTo`. -/
theorem reassembled_movedTo (cs v2 : List Choice) (j : Nat)
    (hlen : v2.length = (visList cs).length)
    (hshape : ∀ k a b, (visList cs).get? k = some a → v2.get? k = some b →
      b.id = a.id ∧ b.value = a.value ∧ b.hidden = a.hidden)
    (hflags : ∀ k c, v2.get? k = some c → (c.selected = true ↔ k = j)) :
    MovedTo cs (reassemble (pass1 cs) v2) j ∧
      visList (reassemble (pass1 cs) v2) = v2 := by
  have hshape' : List.Forall₂ SameShape (visList (pass1 cs)) v2 := by
    rw [visList_pass1]
    refine forall₂_of_get? _ _ hlen.symm ?_
    intro k a b h1 h2
    obtain ⟨e1, e2, e3⟩ := hshape k a b h1 h2
    exact ⟨e1.symm, e2.symm, e3.symm⟩
  obtain ⟨hrea, hvis⟩ := reassemble_spec (pass1 cs) v2 hshape'
  set cs' := reassemble (pass1 cs) v2 with hcs'
  have hlen1 : cs'.length = cs.length := by
    rw [← hrea.length_eq, length_pass1]
  have hvis' : visList cs' = v2 := hvis
  refine ⟨⟨hlen1, ?_, ?_, ?_, ?_, ?_⟩, hvis'⟩
  · -- per-slot shape preservation on the full list
    intro k a b h1 h2
    have h1p : (pass1 cs).get? k =
        some (if a.hidden then { a with selected := false } else a) := by
      rw [get?_pass1, h1]
      rfl
    have hr := forall₂_get?_imp hrea k _ b h1p h2
    obtain ⟨e1, e2, e3, _⟩ := hr
    by_cases ha : a.hidden
    · rw [if_pos ha] at e1 e2 e3
      exact ⟨e1.symm, e2.symm, e3.symm⟩
    · rw [if_neg ha] at e1 e2 e3
      exact ⟨e1.symm, e2.symm, e3.symm⟩
  · -- hidden entries are never selected
    intro c hc hch
    obtain ⟨k, hk⟩ := List.mem_iff_get?.1 hc
    have hk1 : k < cs'.length := (List.get?_eq_some.1 hk).1
    have hk0 : k < (pass1 cs).length := by
      rw [← hrea.length_eq] at hk1
      exact hk1
    obtain ⟨a, ha⟩ : ∃ a, (pass1 cs).get? k = some a := by
      rw [List.get?_eq_get hk0]
      exact ⟨_, rfl⟩
    have hr := forall₂_get?_imp hrea k a c ha hk
    have hah : a.hidden = true := by rw [hr.2.2.1, hch]
    have hceq : c = a := hr.2.2.2 hah
    obtain ⟨k', hk'⟩ : ∃ a₀, cs.get? k = some a₀ := by
      have : k < cs.length := by rw [← length_pass1]; exact hk0
      rw [List.get?_eq_get this]
      exact ⟨_, rfl⟩
    have : (pass1 cs).get? k =
        some (if k'.hidden then { k' with selected := false } else k') := by
      rw [get?_pass1, hk']
      rfl
    rw [this] at ha
    have ha' := Option.some_inj.1 ha
    by_cases hkh : k'.hidden
    · rw [if_pos hkh] at ha'
      rw [hceq, ← ha']
    · rw [if_neg hkh] at ha'
      rw [← ha'] at hah
      exact absurd hah (by simpa using hkh)
  · rw [hvis', hlen]
  · intro k c h
    rw [hvis'] at h
    exact hflags k c h
  · intro k a b h1 h2
    rw [hvis'] at h2
    obtain ⟨e1, e2, _⟩ := hshape k a b h1 h2
    exact ⟨e1, e2⟩

/-- `move` with a unique selected visible entry at index `i`: the selection
moves to `i + increment` clamped into the visible range, and the returned
pointer is the entry now selected. -/
theorem move_master (cs : List Choice) (inc : Int) (i : Nat)
    (hi : i < (visList cs).length)
    (hsel : ∀ k c, (visList cs).get? k = some c → (c.selected = true ↔ k = i)) :
    ∃ cs', move cs inc =
        .ok cs'
          ((visList cs').get? (clampIdx (visList cs).length ((i : Int) + inc))) ∧
      MovedTo cs cs' (clampIdx (visList cs).length ((i : Int) + inc)) := by
  have hvl := visList_pass1 cs
  have hLpos : 0 < (visList cs).length := Nat.lt_of_le_of_lt (Nat.zero_le i) hi
  obtain ⟨ci, hci⟩ : ∃ c, (visList cs).get? i = some c := by
    rw [List.get?_eq_get hi]
    exact ⟨_, rfl⟩
  have hanysel : (visList cs).any (fun c => c.selected) = true :=
    List.any_eq_true.2 ⟨ci, List.get?_mem hci, (hsel i ci hci).2 rfl⟩
  have hfind : findSel (visList cs) = some i := findSel_eq_some _ i hi hsel
  have hnotE : (visList cs).isEmpty = false := by
    cases hv : visList cs
    · rw [hv] at hLpos
      simp at hLpos
    · rfl
  have hmv : move cs inc = moveScan (pass1 cs) (visList cs) i inc := by
    unfold move
    rw [hvl]
    rw [if_neg (by rw [hnotE]; exact fun h => Bool.noConfusion h)]
    rw [if_neg (by rw [hanysel]; exact fun h => Bool.noConfusion h)]
    rw [hfind]
  set j := clampIdx (visList cs).length ((i : Int) + inc) with hj
  set v2 := modifySel (modifySel (visList cs) i false) j true with hv2
  have hlen : v2.length = (visList cs).length := by
    rw [hv2, length_modifySel, length_modifySel]
  have hshape : ∀ k a b, (visList cs).get? k = some a → v2.get? k = some b →
      b.id = a.id ∧ b.value = a.value ∧ b.hidden = a.hidden := by
    intro k a b h1 h2
    rw [hv2, get?_modifySel] at h2
    by_cases hkj : k = j
    · rw [if_pos hkj, get?_modifySel] at h2
      by_cases hki : k = i
      · rw [if_pos hki, h1, Option.map_some', Option.map_some'] at h2
        rw [← Option.some_inj.1 h2]
        exact ⟨rfl, rfl, rfl⟩
      · rw [if_neg hki, h1, Option.map_some'] at h2
        rw [← Option.some_inj.1 h2]
        exact ⟨rfl, rfl, rfl⟩
    · rw [if_neg hkj, get?_modifySel] at h2
      by_cases hki : k = i
      · rw [if_pos hki, h1, Option.map_some'] at h2
        rw [← Option.some_inj.1 h2]
        exact ⟨rfl, rfl, rfl⟩
      · rw [if_neg hki, h1] at h2
        rw [← Option.some_inj.1 h2]
        exact ⟨rfl, rfl, rfl⟩
  have hflags : ∀ k c, v2.get? k = some c → (c.selected = true ↔ k = j) := by
    intro k c h
    rw [hv2, get?_modifySel] at h
    by_cases hkj : k = j
    · rw [if_pos hkj] at h
      cases hin : (modifySel (visList cs) i false).get? k with
      | none => rw [hin] at h; exact absurd h (by simp)
      | some d =>
        rw [hin, Option.map_some'] at h
        rw [← Option.some_inj.1 h]
        simp [hkj]
    · rw [if_neg hkj, get?_modifySel] at h
      by_cases hki : k = i
      · rw [if_pos hki] at h
        cases hin : (visList cs).get? k with
        | none => rw [hin] at h; exact absurd h (by simp)
        | some d =>
          rw [hin, Option.map_some'] at h
          rw [← Option.some_inj.1 h]
          constructor
          · intro hs; exact absurd hs (by simp)
          · intro h'; exact absurd h' hkj
      · rw [if_neg hki] at h
        have := hsel k c h
        constructor
        · intro hs; exact absurd (this.1 hs) hki
        · intro h'; exact absurd h' hkj
  obtain ⟨hmt, hveq⟩ := reassembled_movedTo cs v2 j hlen hshape hflags
  refine ⟨reassemble (pass1 cs) v2, ?_, hmt⟩
  rw [hmv, moveScan_eq _ _ _ _ hi, hveq]

/-- `move` when no visible entry is selected: the first visible entry gets
selected and returned (the recovery branch). -/
theorem move_noSel (cs : List Choice) (inc : Int)
    (hLpos : 0 < (visList cs).length)
    (hnosel : ∀ c ∈ visList cs, c.selected = false) :
    ∃ cs', move cs inc = .ok cs' ((visList cs').get? 0) ∧
      MovedTo cs cs' 0 := by
  have hvl := visList_pass1 cs
  have hany : (visList cs).any (fun c => c.selected) = false := by
    rw [List.any_eq_false]
    intro c hc
    rw [hnosel c hc]
    exact fun h => Bool.noConfusion h
  have hnotE : (visList cs).isEmpty = false := by
    cases hv : visList cs
    · rw [hv] at hLpos
      simp at hLpos
    · rfl
  set v2 := modifySel (visList cs) 0 true with hv2
  have hmv : move cs inc =
      .ok (reassemble (pass1 cs) v2) (v2.head?) := by
    unfold move
    rw [hvl]
    rw [if_neg (by rw [hnotE]; exact fun h => Bool.noConfusion h)]
    rw [if_pos (by rw [hany]; rfl)]
  have hlen : v2.length = (visList cs).length := by
    rw [hv2, length_modifySel]
  have hshape : ∀ k a b, (visList cs).get? k = some a → v2.get? k = some b →
      b.id = a.id ∧ b.value = a.value ∧ b.hidden = a.hidden := by
    intro k a b h1 h2
    rw [hv2, get?_modifySel] at h2
    by_cases hk0 : k = 0
    · rw [if_pos hk0, h1, Option.map_some'] at h2
      rw [← Option.some_inj.1 h2]
      exact ⟨rfl, rfl, rfl⟩
    · rw [if_neg hk0, h1] at h2
      rw [← Option.some_inj.1 h2]
      exact ⟨rfl, rfl, rfl⟩
  have hflags : ∀ k c, v2.get? k = some c → (c.selected = true ↔ k = 0) := by
    intro k c h
    rw [hv2, get?_modifySel] at h
    by_cases hk0 : k = 0
    · rw [if_pos hk0] at h
      cases hin : (visList cs).get? k with
      | none => rw [hin] at h; exact absurd h (by simp)
      | some d =>
        rw [hin, Option.map_some'] at h
        rw [← Option.some_inj.1 h]
        simp [hk0]
    · rw [if_neg hk0] at h
      have hmem : c ∈ visList cs := List.get?_mem h
      constructor
      · intro hs; exact absurd hs (by simp [hnosel c hmem])
      · intro h'; exact absurd h' hk0
  obtain ⟨hmt, hveq⟩ := reassembled_movedTo cs v2 0 hlen hshape hflags
  refine ⟨reassemble (pass1 cs) v2, ?_, hmt⟩
  rw [hmv, hveq, List.get?_zero]

/-- `move` on an all-hidden list: nil is returned and every entry ends up
deselected. -/
theorem move_visEmpty (cs : List Choice) (inc : Int) (h : visList cs = []) :
    move cs inc = .ok (pass1 cs) none ∧
      ∀ c ∈ pass1 cs, c.selected = false := by
  have hE : (visList (pass1 cs)).isEmpty = true := by
    rw [visList_pass1, h]
    rfl
  constructor
  · unfold move
    rw [if_pos hE]
  · intro c hc
    rw [pass1, List.mem_map] at hc
    obtain ⟨a, ha, hfa⟩ := hc
    have hah : a.hidden = true := by
      have := List.filter_eq_nil.1 h a ha
      simpa using this
    rw [← hfa, if_pos hah]

theorem moveScan_ne_panicked (base vis : List Choice) (i : Nat) (inc : Int) :
    moveScan base vis i inc ≠ .panicked := by
  unfold moveScan
  by_cases h1 : (i : Int) + inc < (vis.length : Int) ∧ 0 < (i : Int) + inc
  · rw [if_pos h1]
    exact fun h => MoveResult.noConfusion h
  · rw [if_neg h1]
    by_cases h2 : (vis.length : Int) ≤ (i : Int) + inc
    · rw [if_pos h2]
      exact fun h => MoveResult.noConfusion h
    · rw [if_neg h2]
      by_cases h3 : (i : Int) + inc ≤ 0
      · rw [if_pos h3]
        exact fun h => MoveResult.noConfusion h
      · rw [if_neg h3]
        exact fun h => MoveResult.noConfusion h

/-- The `panic` branch of `move` is unreachable on every input. -/
theorem move_ne_panicked_aux (cs : List Choice) (inc : Int) :
    move cs inc ≠ .panicked := by
  unfold move
  by_cases hE : (visList (pass1 cs)).isEmpty = true
  · rw [if_pos hE]
    exact fun h => MoveResult.noConfusion h
  · rw [if_neg hE]
    by_cases hA : (visList (pass1 cs)).any (fun c => c.selected) = true
    · rw [if_neg (by rw [hA]; exact fun h => Bool.noConfusion h)]
      obtain ⟨i, hfind⟩ := findSel_isSome_of_any _ hA
      rw [hfind]
      exact moveScan_ne_panicked _ _ _ _
    · have hA' : (visList (pass1 cs)).any (fun c => c.selected) = false := by
        simpa using hA
      rw [if_pos (by rw [hA']; rfl)]
      exact fun h => MoveResult.noConfusion h

/-! ## The session invariant -/

/-- Invariant maintained by the event loop: the choice slice has one entry
per input string with `id` equal to its position and `value` the input
string; hidden entries are never selected; exactly one visible entry is
selected whenever one exists (and none otherwise); after an abort the
selection pointer is nil, and otherwise it points at a selected,
non-hidden member of the slice (being nil only when nothing is visible). -/
def Inv (xs : List String) (s : SessionState) : Prop :=
  s.choices.length = xs.length ∧
  (∀ k c, s.choices.get? k = some c → c.id = k ∧ xs.get? k = some c.value) ∧
  (∀ c ∈ s.choices, c.hidden = true → c.selected = false) ∧
  ((visList s.choices).countP (fun c => c.selected) =
    if (visList s.choices).isEmpty then 0 else 1) ∧
  (s.outcome = .aborted → s.selectedChoice = none) ∧
  (s.outcome ≠ .aborted →
    (∀ c, s.selectedChoice = some c →
      c ∈ s.choices ∧ c.selected = true ∧ c.hidden = false) ∧
    (s.selectedChoice = none → visList s.choices = []))

theorem length_applyQuery (cs : List Choice) (q : String) :
    (applyQuery cs q).length = cs.length := by
  simp [applyQuery]

theorem get?_applyQuery (cs : List Choice) (q : String) (k : Nat) :
    (applyQuery cs q).get? k =
      (cs.get? k).map (fun c => { c with hidden := !(strContains c.value q) }) := by
  simp [applyQuery, List.get?_map]

/-- The conclusion bundle shared by all successful `move` outcomes that
select visible index `j`. -/
theorem movedTo_establishes (cs cs' : List Choice) (j : Nat)
    (hmt : MovedTo cs cs' j) (hj : j < (visList cs).length) :
    (∀ c ∈ cs', c.hidden = true → c.selected = false) ∧
    ((visList cs').countP (fun c => c.selected) =
      if (visList cs').isEmpty then 0 else 1) ∧
    cs'.length = cs.length ∧
    (∀ k a b, cs.get? k = some a → cs'.get? k = some b →
      b.id = a.id ∧ b.value = a.value ∧ b.hidden = a.hidden) ∧
    (∀ c, (visList cs').get? j = some c →
      c ∈ cs' ∧ c.selected = true ∧ c.hidden = false) ∧
    (visList cs').get? j ≠ none := by
  obtain ⟨hlen, hshape, hhid, hvlen, hflags, hvshape⟩ := hmt
  have hj' : j < (visList cs').length := by rw [hvlen]; exact hj
  have hne : (visList cs').isEmpty = false := by
    cases hv : visList cs'
    · rw [hv] at hj'
      simp at hj'
    · rfl
  refine ⟨hhid, ?_, hlen, hshape, ?_, ?_⟩
  · rw [hne, if_neg (fun h => Bool.noConfusion h)]
    exact countP_sel_of_unique _ j hj' hflags
  · intro c hc
    have hmem : c ∈ visList cs' := List.get?_mem hc
    rw [visList, List.mem_filter] at hmem
    exact ⟨hmem.1, (hflags j c hc).2 rfl, by simpa using hmem.2⟩
  · rw [List.get?_eq_get hj']
    exact fun h => Option.noConfusion h

/-- Any `move` from a state with at most one selected entry succeeds and
re-establishes the selection invariant. -/
theorem move_establishes (cs : List Choice) (inc : Int)
    (hfull : cs.countP (fun c => c.selected) ≤ 1) :
    ∃ cs' ret, move cs inc = .ok cs' ret ∧
      (∀ c ∈ cs', c.hidden = true → c.selected = false) ∧
      ((visList cs').countP (fun c => c.selected) =
        if (visList cs').isEmpty then 0 else 1) ∧
      cs'.length = cs.length ∧
      (∀ k a b, cs.get? k = some a → cs'.get? k = some b →
        b.id = a.id ∧ b.value = a.value ∧ b.hidden = a.hidden) ∧
      (∀ c, ret = some c → c ∈ cs' ∧ c.selected = true ∧ c.hidden = false) ∧
      (ret = none → visList cs' = []) := by
  by_cases hq : visList cs = []
  · obtain ⟨hmv, hall⟩ := move_visEmpty cs inc hq
    refine ⟨pass1 cs, none, hmv, ?_, ?_, length_pass1 cs, ?_, ?_, ?_⟩
    · intro c hc _
      exact hall c hc
    · have : visList (pass1 cs) = [] := by rw [visList_pass1, hq]
      rw [this]
      rfl
    · intro k a b h1 h2
      rw [get?_pass1, h1, Option.map_some'] at h2
      rw [← Option.some_inj.1 h2]
      by_cases ha : a.hidden
      · rw [if_pos ha]
        exact ⟨rfl, rfl, rfl⟩
      · rw [if_neg ha]
        exact ⟨rfl, rfl, rfl⟩
    · intro c hc
      exact absurd hc (fun h => Option.noConfusion h)
    · intro _
      rw [visList_pass1, hq]
  · have hLpos : 0 < (visList cs).length := by
      cases hv : visList cs
      · exact absurd hv hq
      · simp
    have hvis_le : (visList cs).countP (fun c => c.selected) ≤ 1 :=
      le_trans (countP_sel_vis_le cs) hfull
    rcases Nat.le_one_iff_eq_zero_or_eq_one.1 hvis_le with h0 | h1
    · have hnosel : ∀ c ∈ visList cs, c.selected = false := by
        intro c hc
        have := List.countP_eq_zero.1 h0 c hc
        simpa using this
      obtain ⟨cs', hmv, hmt⟩ := move_noSel cs inc hLpos hnosel
      obtain ⟨e1, e2, e3, e4, e5, e6⟩ := movedTo_establishes cs cs' 0 hmt hLpos
      refine ⟨cs', (visList cs').get? 0, hmv, e1, e2, e3, e4, e5, ?_⟩
      intro hn
      exact absurd hn e6
    · obtain ⟨i, hi, hsel⟩ := unique_of_countP_one _ h1
      obtain ⟨cs', hmv, hmt⟩ := move_master cs inc i hi hsel
      have hjlt := clampIdx_lt (visList cs).length ((i : Int) + inc) hLpos
      obtain ⟨e1, e2, e3, e4, e5, e6⟩ := movedTo_establishes cs cs' _ hmt hjlt
      refine ⟨cs', _, hmv, e1, e2, e3, e4, e5, ?_⟩
      intro hn
      exact absurd hn e6

/-- Folding any `move` into a pending session state whose choices satisfy
the positional and counting conditions yields an invariant state. -/
theorem inv_applyMove (xs : List String) (s₂ : SessionState)
    (hp : s₂.outcome = .pending)
    (hlen : s₂.choices.length = xs.length)
    (hids : ∀ k c, s₂.choices.get? k = some c →
      c.id = k ∧ xs.get? k = some c.value)
    (hfull : s₂.choices.countP (fun c => c.selected) ≤ 1) (inc : Int) :
    Inv xs (applyMove s₂ (move s₂.choices inc)) := by
  obtain ⟨cs', ret, hmv, e1, e2, e3, e4, e5, e6⟩ :=
    move_establishes s₂.choices inc hfull
  rw [hmv]
  refine ⟨by rw [applyMove]; rw [e3]; exact hlen, ?_, e1, e2, ?_, ?_⟩
  · intro k c hc
    rw [applyMove] at hc
    have hk : k < cs'.length := (List.get?_eq_some.1 hc).1
    have hk' : k < s₂.choices.length := by rw [← e3]; exact hk
    obtain ⟨a, ha⟩ : ∃ a, s₂.choices.get? k = some a := by
      rw [List.get?_eq_get hk']
      exact ⟨_, rfl⟩
    obtain ⟨f1, f2, _⟩ := e4 k a c ha hc
    obtain ⟨g1, g2⟩ := hids k a ha
    exact ⟨by rw [f1, g1], by rw [f2]; exact g2⟩
  · intro hab
    rw [applyMove] at hab
    exact absurd (hp ▸ hab) (fun hh => Outcome.noConfusion hh)
  · intro _
    constructor
    · intro c hc
      rw [applyMove] at hc
      exact e5 c hc
    · intro hn
      rw [applyMove] at hn
      exact e6 hn

theorem mkChoicesAux_hidden (n : Nat) (xs : List String) :
    ∀ c ∈ mkChoicesAux n xs, c.hidden = false := by
  induction xs generalizing n with
  | nil => intro c hc; simp [mkChoicesAux] at hc
  | cons x xs ih =>
    intro c hc
    rw [mkChoicesAux] at hc
    rcases List.mem_cons.1 hc with h | h
    · rw [h]
    · exact ih (n + 1) c h

theorem mkChoices_sel_unique (xs : List String) :
    ∀ k c, (mkChoices xs).get? k = some c → (c.selected = true ↔ k = 0) := by
  intro k c h
  rw [mkChoices, get?_mkChoicesAux] at h
  cases hx : xs.get? k with
  | none => rw [hx] at h; exact absurd h (by simp)
  | some x =>
    rw [hx, Option.map_some'] at h
    rw [← Option.some_inj.1 h]
    show ((0 + k) == 0) = true ↔ k = 0
    simp

theorem initState_inv (xs : List String) (hxs : xs ≠ []) :
    Inv xs (initState xs) := by
  have hlen : (mkChoices xs).length = xs.length := length_mkChoicesAux 0 xs
  have hlpos : 0 < (mkChoices xs).length := by
    rw [hlen]
    cases xs with
    | nil => exact absurd rfl hxs
    | cons x xs => simp
  have hids : ∀ k c, (mkChoices xs).get? k = some c →
      c.id = k ∧ xs.get? k = some c.value := by
    intro k c h
    rw [mkChoices, get?_mkChoicesAux] at h
    cases hx : xs.get? k with
    | none => rw [hx] at h; exact absurd h (by simp)
    | some x =>
      rw [hx, Option.map_some'] at h
      rw [← Option.some_inj.1 h]
      exact ⟨Nat.zero_add k, rfl⟩
  have hhid : ∀ c ∈ mkChoices xs, c.hidden = true → c.selected = false := by
    intro c hc hch
    exact absurd hch (by simp [mkChoicesAux_hidden 0 xs c hc])
  have hvl : visList (mkChoices xs) = mkChoices xs :=
    List.filter_eq_self.2 (fun c hc => by
      simp [mkChoicesAux_hidden 0 xs c hc])
  have hne : (mkChoices xs).isEmpty = false := by
    cases hm : mkChoices xs
    · rw [hm] at hlpos
      simp at hlpos
    · rfl
  refine ⟨hlen, hids, hhid, ?_, ?_, ?_⟩
  · show (visList (mkChoices xs)).countP (fun c => c.selected) =
      if (visList (mkChoices xs)).isEmpty then 0 else 1
    rw [hvl, hne, if_neg (fun hh => Bool.noConfusion hh)]
    exact countP_sel_of_unique _ 0 hlpos (mkChoices_sel_unique xs)
  · intro hab
    exact absurd hab (fun hh => Outcome.noConfusion hh)
  · intro _
    constructor
    · intro c hc
      have hc' : (mkChoices xs).get? 0 = some c := by
        rw [List.get?_zero]
        exact hc
      refine ⟨List.get?_mem hc', (mkChoices_sel_unique xs 0 c hc').2 rfl, ?_⟩
      exact mkChoicesAux_hidden 0 xs c (List.get?_mem hc')
    · intro hn
      have hn' : (mkChoices xs).get? 0 = none := by
        rw [List.get?_zero]
        exact hn
      rw [List.get?_eq_get hlpos] at hn'
      exact absurd hn' (fun hh => Option.noConfusion hh)

theorem step1_inv (h : Int) (q : String) (xs : List String) (s : SessionState)
    (hInv : Inv xs s) (hp : s.outcome = .pending) :
    ∀ ev, Inv xs (step1 h q s ev) := by
  obtain ⟨i1, i2, i3, i4, i5, i6⟩ := hInv
  have hfull : s.choices.countP (fun c => c.selected) ≤ 1 := by
    rw [countP_sel_eq_vis s.choices i3, i4]
    split
    · exact Nat.zero_le 1
    · exact Nat.le_refl 1
  have hq_ids : ∀ (q' : String) (k : Nat) (c : Choice),
      (applyQuery s.choices q').get? k = some c →
        c.id = k ∧ xs.get? k = some c.value := by
    intro q' k c hc
    rw [get?_applyQuery] at hc
    cases ha : s.choices.get? k with
    | none => rw [ha] at hc; exact absurd hc (by simp)
    | some a =>
      rw [ha, Option.map_some'] at hc
      rw [← Option.some_inj.1 hc]
      obtain ⟨g1, g2⟩ := i2 k a ha
      exact ⟨g1, g2⟩
  have hq_full : ∀ q' : String,
      (applyQuery s.choices q').countP (fun c => c.selected) ≤ 1 := by
    intro q'
    rw [countP_sel_applyQuery]
    exact hfull
  intro ev
  cases ev with
  | up => exact inv_applyMove xs s hp i1 i2 hfull _
  | down => exact inv_applyMove xs s hp i1 i2 hfull _
  | home => exact inv_applyMove xs s hp i1 i2 hfull _
  | endKey => exact inv_applyMove xs s hp i1 i2 hfull _
  | pgUp => exact inv_applyMove xs s hp i1 i2 hfull _
  | pgDn => exact inv_applyMove xs s hp i1 i2 hfull _
  | backspace =>
    show Inv xs (if s.searchQuery.length > 0 then _ else s)
    by_cases hq' : s.searchQuery.length > 0
    · rw [if_pos hq']
      exact inv_applyMove xs
        { s with
          searchQuery := s.searchQuery.dropRight 1
          choices := applyQuery s.choices (s.searchQuery.dropRight 1) }
        hp (by rw [length_applyQuery]; exact i1)
        (hq_ids (s.searchQuery.dropRight 1)) (hq_full _) _
    · rw [if_neg hq']
      exact ⟨i1, i2, i3, i4, i5, i6⟩
  | rune c =>
    exact inv_applyMove xs
      { s with
        searchQuery := s.searchQuery.push c
        choices := applyQuery s.choices (s.searchQuery.push c) }
      hp (by rw [length_applyQuery]; exact i1)
      (hq_ids (s.searchQuery.push c)) (hq_full _) _
  | enter =>
    refine ⟨i1, i2, i3, i4, ?_, ?_⟩
    · intro hab
      exact absurd hab (fun hh => Outcome.noConfusion hh)
    · intro _
      exact i6 (by rw [hp]; exact fun hh => Outcome.noConfusion hh)
  | right =>
    refine ⟨i1, i2, i3, i4, ?_, ?_⟩
    · intro hab
      exact absurd hab (fun hh => Outcome.noConfusion hh)
    · intro _
      exact i6 (by rw [hp]; exact fun hh => Outcome.noConfusion hh)
  | escape =>
    refine ⟨i1, i2, i3, i4, fun _ => rfl, ?_⟩
    · intro hna
      exact absurd rfl hna
  | ctrlC =>
    refine ⟨i1, i2, i3, i4, fun _ => rfl, ?_⟩
    · intro hna
      exact absurd rfl hna
  | left =>
    refine ⟨i1, i2, i3, i4, fun _ => rfl, ?_⟩
    · intro hna
      exact absurd rfl hna
  | resize => exact ⟨i1, i2, i3, i4, i5, i6⟩

theorem foldl_stepIf_inv (h : Int) (q : String) (xs : List String)
    (evs : List Event) :
    ∀ s : SessionState, Inv xs s →
      Inv xs (evs.foldl (stepIf h q) s) := by
  induction evs with
  | nil => intro s hs; exact hs
  | cons e evs ih =>
    intro s hs
    rw [List.foldl_cons]
    apply ih
    unfold stepIf
    by_cases hp : s.outcome = .pending
    · rw [if_pos hp]
      exact step1_inv h q xs s hs hp e
    · rw [if_neg hp]
      exact hs

/-- The invariant holds in every reachable session state. -/
theorem run_inv (h : Int) (q : String) (xs : List String) (evs : List Event)
    (hxs : xs ≠ []) : Inv xs (run h q xs evs) :=
  foldl_stepIf_inv h q xs evs (initState xs) (initState_inv xs hxs)

/-! ## Claim theorems -/

theorem sel_of_getD (l : List Choice) (i : Nat)
    (h : ∀ k, k < l.length → ((l.getD k default).selected = true ↔ k = i)) :
    ∀ k c, l.get? k = some c → (c.selected = true ↔ k = i) := by
  intro k c hk
  have hlt : k < l.length := (List.get?_eq_some.1 hk).1
  have hgd : l.getD k default = c := by
    rw [List.getD_eq_get?, hk]
    rfl
  rw [← hgd]
  exact h k hlt

/-- C10: the `panic("Something went wrong")` branch of `move` is
unreachable — for every choice list (in particular whenever at least one
non-hidden choice has its selected flag set) and every increment, `move`
returns through one of the earlier branches and never reaches the panic. -/
theorem move_never_panics (cs : List Choice) (inc : Int) :
    move cs inc ≠ .panicked :=
  move_ne_panicked_aux cs inc

/-- C9: called with an empty choice list, `pick` returns the `ErrNoChoice`
configuration error immediately: the result is that error for every event
sequence, terminal height and question, so the loop never influences the
outcome and no choice state is consulted. -/
theorem pick_empty_input (h : Int) (q : String) (evs : List Event) :
    pickRun h q [] evs = .error .errNoChoice := rfl

/-- C1: selection invariant — in every reachable session state (after
construction and after any sequence of moves, query edits, and other
events), exactly one non-hidden choice is selected whenever at least one
non-hidden choice exists, no non-hidden choice is selected otherwise, and
when no choice is visible no choice is selected at all. -/
theorem selection_invariant (h : Int) (q : String) (xs : List String)
    (evs : List Event) (hxs : xs ≠ []) :
    ((visList (run h q xs evs).choices).countP (fun c => c.selected) =
      if (visList (run h q xs evs).choices).isEmpty then 0 else 1) ∧
    (visList (run h q xs evs).choices = [] →
      ∀ c ∈ (run h q xs evs).choices, c.selected = false) := by
  obtain ⟨_, _, i3, i4, _, _⟩ := run_inv h q xs evs hxs
  refine ⟨i4, ?_⟩
  intro hv c hc
  by_cases hh : c.hidden
  · exact i3 c hc hh
  · have hmem : c ∈ visList (run h q xs evs).choices := by
      rw [visList, List.mem_filter]
      exact ⟨hc, by simpa using hh⟩
    rw [hv] at hmem
    exact absurd hmem (List.not_mem_nil c)

theorem selection_invariant_witness :
    ((["a", "b"] : List String) ≠ []) ∧
    (((visList (run 24 "Pick:" ["a", "b"] [.down]).choices).countP
        (fun c => c.selected) =
      if (visList (run 24 "Pick:" ["a", "b"] [.down]).choices).isEmpty
      then 0 else 1) ∧
    (visList (run 24 "Pick:" ["a", "b"] [.down]).choices = [] →
      ∀ c ∈ (run 24 "Pick:" ["a", "b"] [.down]).choices,
        c.selected = false)) :=
  ⟨by decide, selection_invariant 24 "Pick:" ["a", "b"] [.down] (by decide)⟩

/-- C3: for a non-empty visible list of length `L` with the selected entry
at index `i` and any step, a down move re-selects and returns the entry at
index `i + step` clamped into `[0, L-1]`, and an up move the entry at
`i - step` clamped into `[0, L-1]` — also when the clamped target equals
`i`, in which case the unchanged selected entry is still returned. -/
theorem move_clamped (cs : List Choice) (i step : Nat) (hstep : 1 ≤ step)
    (hi : i < (visList cs).length)
    (hsel : ∀ k, k < (visList cs).length →
      (((visList cs).getD k default).selected = true ↔ k = i)) :
    (∃ cs', moveDown cs (step : Int) = .ok cs'
        ((visList cs').get?
          (clampIdx (visList cs).length ((i : Int) + (step : Int)))) ∧
      MovedTo cs cs' (clampIdx (visList cs).length ((i : Int) + (step : Int)))) ∧
    (∃ cs', moveUp cs (step : Int) = .ok cs'
        ((visList cs').get?
          (clampIdx (visList cs).length ((i : Int) - (step : Int)))) ∧
      MovedTo cs cs' (clampIdx (visList cs).length ((i : Int) - (step : Int)))) := by
  have hs := sel_of_getD _ _ hsel
  constructor
  · exact move_master cs (step : Int) i hi hs
  · have hm := move_master cs (-(step : Int)) i hi hs
    rw [show (i : Int) - (step : Int) = (i : Int) + -(step : Int) from by ring]
    exact hm

theorem move_clamped_witness :
    (1 ≤ 2 ∧ 1 < (visList sampleChoices).length ∧
      (∀ k, k < (visList sampleChoices).length →
        (((visList sampleChoices).getD k default).selected = true ↔ k = 1))) ∧
    ((∃ cs', moveDown sampleChoices (2 : Int) = .ok cs'
        ((visList cs').get?
          (clampIdx (visList sampleChoices).length ((1 : Int) + (2 : Int)))) ∧
      MovedTo sampleChoices cs'
        (clampIdx (visList sampleChoices).length ((1 : Int) + (2 : Int)))) ∧
    (∃ cs', moveUp sampleChoices (2 : Int) = .ok cs'
        ((visList cs').get?
          (clampIdx (visList sampleChoices).length ((1 : Int) - (2 : Int)))) ∧
      MovedTo sampleChoices cs'
        (clampIdx (visList sampleChoices).length ((1 : Int) - (2 : Int))))) :=
  ⟨⟨by decide, by decide, by decide⟩,
    move_clamped sampleChoices 1 2 (by decide) (by decide) (by decide)⟩

/-- C6: with at least one visible choice and the current selection at any
visible index `i`, a Home move (up with step = total visible count) selects
and returns the first visible choice, and an End move (down with step =
total visible count) selects and returns the last visible choice. -/
theorem home_end_moves (cs : List Choice) (i : Nat)
    (hi : i < (visList cs).length)
    (hsel : ∀ k, k < (visList cs).length →
      (((visList cs).getD k default).selected = true ↔ k = i)) :
    (∃ cs', moveUp cs ((visList cs).length : Int) = .ok cs'
        ((visList cs').get? 0) ∧ MovedTo cs cs' 0) ∧
    (∃ cs', moveDown cs ((visList cs).length : Int) = .ok cs'
        ((visList cs').get? ((visList cs).length - 1)) ∧
      MovedTo cs cs' ((visList cs).length - 1)) := by
  have hs := sel_of_getD _ _ hsel
  constructor
  · have hm := move_master cs (-((visList cs).length : Int)) i hi hs
    have hj : clampIdx (visList cs).length
        ((i : Int) + -((visList cs).length : Int)) = 0 := by
      unfold clampIdx
      omega
    rw [hj] at hm
    exact hm
  · have hm := move_master cs ((visList cs).length : Int) i hi hs
    have hj : clampIdx (visList cs).length
        ((i : Int) + ((visList cs).length : Int)) =
        (visList cs).length - 1 := by
      unfold clampIdx
      omega
    rw [hj] at hm
    exact hm

theorem home_end_moves_witness :
    (0 < (visList sampleHiddenChoices).length ∧
      (∀ k, k < (visList sampleHiddenChoices).length →
        (((visList sampleHiddenChoices).getD k default).selected = true ↔
          k = 0))) ∧
    ((∃ cs', moveUp sampleHiddenChoices
          ((visList sampleHiddenChoices).length : Int) = .ok cs'
        ((visList cs').get? 0) ∧ MovedTo sampleHiddenChoices cs' 0) ∧
    (∃ cs', moveDown sampleHiddenChoices
          ((visList sampleHiddenChoices).length : Int) = .ok cs'
        ((visList cs').get? ((visList sampleHiddenChoices).length - 1)) ∧
      MovedTo sampleHiddenChoices cs'
        ((visList sampleHiddenChoices).length - 1))) :=
  ⟨⟨by decide, by decide⟩,
    home_end_moves sampleHiddenChoices 0 (by decide) (by decide)⟩

/-- C7: `computePageSize` returns `R − headerLines − 1` when the terminal
row count `R` exceeds the number of prompt lines, and returns `R` unchanged
otherwise; for a non-negative `R` the returned step is non-negative, page
navigation with it never panics, and from a selection at visible index `i`
a page-down never lands below `i` and a page-up never lands above `i` (so
navigation never moves in the opposite direction, in particular when the
header lines reach or exceed `R`). -/
theorem computePageSize_spec (R : Int) (question : String) (hR : 0 ≤ R) :
    ((questionLineCount question : Int) < R →
      computePageSize R question = R - (questionLineCount question : Int) - 1) ∧
    (R ≤ (questionLineCount question : Int) →
      computePageSize R question = R) ∧
    0 ≤ computePageSize R question ∧
    (∀ cs : List Choice, moveDown cs (computePageSize R question) ≠ .panicked ∧
      moveUp cs (computePageSize R question) ≠ .panicked) ∧
    (∀ (cs : List Choice) (i : Nat), i < (visList cs).length →
      (∀ k, k < (visList cs).length →
        (((visList cs).getD k default).selected = true ↔ k = i)) →
      i ≤ clampIdx (visList cs).length
        ((i : Int) + computePageSize R question) ∧
      clampIdx (visList cs).length
        ((i : Int) - computePageSize R question) ≤ i ∧
      (∃ cs', moveDown cs (computePageSize R question) = .ok cs'
          ((visList cs').get? (clampIdx (visList cs).length
            ((i : Int) + computePageSize R question))) ∧
        MovedTo cs cs' (clampIdx (visList cs).length
          ((i : Int) + computePageSize R question))) ∧
      (∃ cs', moveUp cs (computePageSize R question) = .ok cs'
          ((visList cs').get? (clampIdx (visList cs).length
            ((i : Int) - computePageSize R question))) ∧
        MovedTo cs cs' (clampIdx (visList cs).length
          ((i : Int) - computePageSize R question)))) := by
  have hstep : 0 ≤ computePageSize R question := by
    unfold computePageSize
    split
    · omega
    · omega
  refine ⟨?_, ?_, hstep, ?_, ?_⟩
  · intro h'
    unfold computePageSize
    rw [if_pos h']
    ring
  · intro h'
    unfold computePageSize
    rw [if_neg (by omega)]
  · intro cs
    exact ⟨move_ne_panicked_aux _ _, move_ne_panicked_aux _ _⟩
  · intro cs i hi hsel
    have hs := sel_of_getD _ _ hsel
    refine ⟨?_, ?_, ?_, ?_⟩
    · unfold clampIdx
      omega
    · unfold clampIdx
      omega
    · exact move_master cs (computePageSize R question) i hi hs
    · have hm := move_master cs (-(computePageSize R question)) i hi hs
      rw [show (i : Int) - computePageSize R question =
          (i : Int) + -(computePageSize R question) from by ring]
      exact hm

theorem computePageSize_spec_witness :
    (0 ≤ (24 : Int)) ∧
    (((questionLineCount "Pick:" : Int) < 24 →
      computePageSize 24 "Pick:" =
        24 - (questionLineCount "Pick:" : Int) - 1) ∧
    (24 ≤ (questionLineCount "Pick:" : Int) →
      computePageSize 24 "Pick:" = 24) ∧
    0 ≤ computePageSize 24 "Pick:" ∧
    (∀ cs : List Choice,
      moveDown cs (computePageSize 24 "Pick:") ≠ .panicked ∧
      moveUp cs (computePageSize 24 "Pick:") ≠ .panicked) ∧
    (∀ (cs : List Choice) (i : Nat), i < (visList cs).length →
      (∀ k, k < (visList cs).length →
        (((visList cs).getD k default).selected = true ↔ k = i)) →
      i ≤ clampIdx (visList cs).length
        ((i : Int) + computePageSize 24 "Pick:") ∧
      clampIdx (visList cs).length
        ((i : Int) - computePageSize 24 "Pick:") ≤ i ∧
      (∃ cs', moveDown cs (computePageSize 24 "Pick:") = .ok cs'
          ((visList cs').get? (clampIdx (visList cs).length
            ((i : Int) + computePageSize 24 "Pick:"))) ∧
        MovedTo cs cs' (clampIdx (visList cs).length
          ((i : Int) + computePageSize 24 "Pick:"))) ∧
      (∃ cs', moveUp cs (computePageSize 24 "Pick:") = .ok cs'
          ((visList cs').get? (clampIdx (visList cs).length
            ((i : Int) - computePageSize 24 "Pick:"))) ∧
        MovedTo cs cs' (clampIdx (visList cs).length
          ((i : Int) - computePageSize 24 "Pick:"))))) :=
  ⟨by decide, computePageSize_spec 24 "Pick:" (by decide)⟩

theorem applyQuery_mem (cs : List Choice) (q : String) :
    ∀ a ∈ applyQuery cs q, a.hidden = !(strContains a.value q) := by
  intro a ha
  rw [applyQuery, List.mem_map] at ha
  obtain ⟨b, _, hb⟩ := ha
  rw [← hb]

theorem applyQuery_ids (cs : List Choice) (q : String)
    (hids : ∀ k c, cs.get? k = some c → c.id = k) :
    ∀ k c, (applyQuery cs q).get? k = some c → c.id = k := by
  intro k c hc
  rw [get?_applyQuery] at hc
  cases ha : cs.get? k with
  | none => rw [ha] at hc; exact absurd hc (by simp)
  | some a =>
    rw [ha, Option.map_some'] at hc
    rw [← Option.some_inj.1 hc]
    exact hids k a ha

/-- In a list whose ids equal their positions, the head of the visible
sublist has the least id among visible entries. -/
theorem head_vis_id_min (l : List Choice)
    (hpos : ∀ k c, l.get? k = some c → c.id = k) :
    ∀ c₀ c₁, (visList l).get? 0 = some c₀ → c₁ ∈ visList l →
      c₀.id ≤ c₁.id := by
  have hpw : l.Pairwise (fun a b => a.id ≤ b.id) := by
    rw [List.pairwise_iff_get]
    intro a b hab
    have ha := hpos a (l.get a) (List.get?_eq_get a.2)
    have hb := hpos b (l.get b) (List.get?_eq_get b.2)
    rw [ha, hb]
    exact Nat.le_of_lt hab
  have hpwv : (visList l).Pairwise (fun a b => a.id ≤ b.id) := by
    rw [visList]
    exact hpw.filter (fun c => !c.hidden)
  intro c₀ c₁ h0 h1
  cases hv2 : visList l with
  | nil =>
    rw [hv2] at h0
    exact absurd h0 (by simp)
  | cons d rest =>
    rw [hv2] at h0 h1
    rw [hv2] at hpwv
    have hd : d = c₀ := Option.some_inj.1 h0
    rcases List.mem_cons.1 h1 with h | h
    · rw [← hd, h]
    · rw [← hd]
      exact List.rel_of_pairwise_cons hpwv h

/-- The effect of `moveUp(choices, len(choices))` right after the filter
has been reapplied for query `q'`: the hidden flags are exactly the filter
of `q'`, and the selection lands on the first visible entry (nil when
nothing is visible). -/
theorem queryMove_core (cs : List Choice) (q' : String)
    (hids : ∀ k c, cs.get? k = some c → c.id = k)
    (hfull : cs.countP (fun c => c.selected) ≤ 1) :
    ∃ cs' ret,
      moveUp (applyQuery cs q') ((applyQuery cs q').length : Int) =
        .ok cs' ret ∧
      (∀ ch ∈ cs', ch.hidden = !(strContains ch.value q')) ∧
      ret = (visList cs').head? ∧
      (∀ c₀ c₁, ret = some c₀ → c₁ ∈ visList cs' → c₀.id ≤ c₁.id) := by
  have hfull₂ : (applyQuery cs q').countP (fun c => c.selected) ≤ 1 := by
    rw [countP_sel_applyQuery]
    exact hfull
  have hids₂ := applyQuery_ids cs q' hids
  by_cases hv : visList (applyQuery cs q') = []
  · obtain ⟨hmv, _⟩ := move_visEmpty (applyQuery cs q') _ hv
    refine ⟨pass1 (applyQuery cs q'), none, hmv, ?_, ?_, ?_⟩
    · intro ch hch
      rw [pass1, List.mem_map] at hch
      obtain ⟨a, ha, hfa⟩ := hch
      have hq := applyQuery_mem cs q' a ha
      by_cases hah : a.hidden
      · rw [← hfa, if_pos hah]
        exact hq
      · rw [← hfa, if_neg hah]
        exact hq
    · rw [visList_pass1, hv]
      rfl
    · intro c₀ c₁ h0
      exact absurd h0 (by simp)
  · have hLpos : 0 < (visList (applyQuery cs q')).length := by
      cases hv2 : visList (applyQuery cs q')
      · exact absurd hv2 hv
      · simp
    have hres : ∃ cs', move (applyQuery cs q')
          (-(((applyQuery cs q').length : Nat) : Int)) =
          .ok cs' ((visList cs').get? 0) ∧
        MovedTo (applyQuery cs q') cs' 0 := by
      have hvis_le : (visList (applyQuery cs q')).countP
          (fun c => c.selected) ≤ 1 :=
        le_trans (countP_sel_vis_le _) hfull₂
      rcases Nat.le_one_iff_eq_zero_or_eq_one.1 hvis_le with h0 | h1
      · have hnosel : ∀ c ∈ visList (applyQuery cs q'), c.selected = false := by
          intro c hc
          have := List.countP_eq_zero.1 h0 c hc
          simpa using this
        exact move_noSel _ _ hLpos hnosel
      · obtain ⟨i, hi, hsel⟩ := unique_of_countP_one _ h1
        have hm := move_master (applyQuery cs q')
          (-(((applyQuery cs q').length : Nat) : Int)) i hi hsel
        have hj : clampIdx (visList (applyQuery cs q')).length
            ((i : Int) + -(((applyQuery cs q').length : Nat) : Int)) = 0 := by
          have hle : (visList (applyQuery cs q')).length ≤
              (applyQuery cs q').length := by
            rw [visList]
            exact List.length_filter_le _ _
          unfold clampIdx
          omega
        rw [hj] at hm
        exact hm
    obtain ⟨cs', hmv, hmt⟩ := hres
    obtain ⟨hlen, hshape, _, _, _, _⟩ := hmt
    have hids' : ∀ k ch, cs'.get? k = some ch → ch.id = k := by
      intro k ch hc
      have hk : k < cs'.length := (List.get?_eq_some.1 hc).1
      have hk' : k < (applyQuery cs q').length := by rw [← hlen]; exact hk
      obtain ⟨a, ha⟩ : ∃ a, (applyQuery cs q').get? k = some a := by
        rw [List.get?_eq_get hk']
        exact ⟨_, rfl⟩
      obtain ⟨e1, _, _⟩ := hshape k a ch ha hc
      rw [e1]
      exact hids₂ k a ha
    refine ⟨cs', (visList cs').get? 0, hmv, ?_, ?_, ?_⟩
    · intro ch hch
      obtain ⟨k, hk⟩ := List.mem_iff_get?.1 hch
      have hklt : k < cs'.length := (List.get?_eq_some.1 hk).1
      have hk' : k < (applyQuery cs q').length := by rw [← hlen]; exact hklt
      obtain ⟨a, ha⟩ : ∃ a, (applyQuery cs q').get? k = some a := by
        rw [List.get?_eq_get hk']
        exact ⟨_, rfl⟩
      obtain ⟨_, e2, e3⟩ := hshape k a ch ha hk
      rw [e3, e2]
      exact applyQuery_mem cs q' a (List.get?_mem ha)
    · rw [List.get?_zero]
    · intro c₀ c₁ h0 h1
      exact head_vis_id_min cs' hids' c₀ c₁ h0 h1

/-- C2: after every query edit from a reachable session state — appending a
character, or backspace on a non-empty query — the filter is reapplied in
full: the hidden flags equal exactly the substring test against the new
query (so the visible set is exactly the choices whose value contains it),
and the selection is reset to the first visible choice, which has the least
id among visible choices (and to nil when nothing remains visible). -/
theorem query_edit_resets (h : Int) (q : String) (xs : List String)
    (evs : List Event) (s : SessionState) (c : Char) (hxs : xs ≠ [])
    (hs : s = run h q xs evs) :
    ((step1 h q s (.rune c)).searchQuery = s.searchQuery.push c ∧
      (∀ ch ∈ (step1 h q s (.rune c)).choices,
        ch.hidden = !(strContains ch.value (s.searchQuery.push c))) ∧
      (step1 h q s (.rune c)).selectedChoice =
        (visList (step1 h q s (.rune c)).choices).head? ∧
      (∀ c₀ c₁, (step1 h q s (.rune c)).selectedChoice = some c₀ →
        c₁ ∈ visList (step1 h q s (.rune c)).choices → c₀.id ≤ c₁.id)) ∧
    (s.searchQuery.length > 0 →
      (step1 h q s .backspace).searchQuery = s.searchQuery.dropRight 1 ∧
      (∀ ch ∈ (step1 h q s .backspace).choices,
        ch.hidden = !(strContains ch.value (s.searchQuery.dropRight 1))) ∧
      (step1 h q s .backspace).selectedChoice =
        (visList (step1 h q s .backspace).choices).head? ∧
      (∀ c₀ c₁, (step1 h q s .backspace).selectedChoice = some c₀ →
        c₁ ∈ visList (step1 h q s .backspace).choices → c₀.id ≤ c₁.id)) := by
  subst hs
  obtain ⟨_, i2, i3, i4, _, _⟩ := run_inv h q xs evs hxs
  have hids : ∀ k c', (run h q xs evs).choices.get? k = some c' → c'.id = k :=
    fun k c' hc => (i2 k c' hc).1
  have hfull : (run h q xs evs).choices.countP (fun c => c.selected) ≤ 1 := by
    rw [countP_sel_eq_vis (run h q xs evs).choices i3, i4]
    split
    · exact Nat.zero_le 1
    · exact Nat.le_refl 1
  constructor
  · obtain ⟨cs', ret, hmv, hA, hB, hC⟩ :=
      queryMove_core (run h q xs evs).choices
        ((run h q xs evs).searchQuery.push c) hids hfull
    have hst : step1 h q (run h q xs evs) (.rune c) =
        { choices := cs', selectedChoice := ret,
          searchQuery := (run h q xs evs).searchQuery.push c,
          outcome := (run h q xs evs).outcome } := by
      show applyMove _ _ = _
      rw [hmv]
      rfl
    rw [hst]
    exact ⟨rfl, hA, hB, hC⟩
  · intro hq'
    obtain ⟨cs', ret, hmv, hA, hB, hC⟩ :=
      queryMove_core (run h q xs evs).choices
        ((run h q xs evs).searchQuery.dropRight 1) hids hfull
    have hst : step1 h q (run h q xs evs) .backspace =
        { choices := cs', selectedChoice := ret,
          searchQuery := (run h q xs evs).searchQuery.dropRight 1,
          outcome := (run h q xs evs).outcome } := by
      show (if (run h q xs evs).searchQuery.length > 0 then _ else _) = _
      rw [if_pos hq']
      show applyMove _ _ = _
      rw [hmv]
      rfl
    rw [hst]
    exact ⟨rfl, hA, hB, hC⟩

theorem query_edit_resets_witness :
    ((["x", "y"] : List String) ≠ [] ∧
      initState ["x", "y"] = run 24 "Pick:" ["x", "y"] []) ∧
    ((step1 24 "Pick:" (initState ["x", "y"]) (.rune 'q')).searchQuery =
        (initState ["x", "y"]).searchQuery.push 'q' ∧
      (∀ ch ∈ (step1 24 "Pick:" (initState ["x", "y"]) (.rune 'q')).choices,
        ch.hidden =
          !(strContains ch.value ((initState ["x", "y"]).searchQuery.push 'q'))) ∧
      (step1 24 "Pick:" (initState ["x", "y"]) (.rune 'q')).selectedChoice =
        (visList (step1 24 "Pick:" (initState ["x", "y"]) (.rune 'q')).choices).head? ∧
      (∀ c₀ c₁,
        (step1 24 "Pick:" (initState ["x", "y"]) (.rune 'q')).selectedChoice =
          some c₀ →
        c₁ ∈ visList (step1 24 "Pick:" (initState ["x", "y"]) (.rune 'q')).choices →
        c₀.id ≤ c₁.id)) :=
  ⟨⟨by decide, rfl⟩,
    (query_edit_resets 24 "Pick:" ["x", "y"] [] (initState ["x", "y"]) 'q'
      (by decide) rfl).1⟩

theorem pickReturn_some (s : SessionState) (c : Choice)
    (h : s.selectedChoice = some c) : pickReturn s = .ok (c.value, c.id) := by
  unfold pickReturn
  rw [h]

theorem pickReturn_none (s : SessionState) (h : s.selectedChoice = none) :
    pickReturn s = .error .errNoChoiceSelected := by
  unfold pickReturn
  rw [h]

/-- C5: from any reachable session state, a confirm key (Enter or Right)
sets the outcome to Confirmed; when a choice is selected, `pick` returns
its `(value, id)`, the choice is a non-hidden member of the slice at the
time of confirmation, and `id` is its zero-based position in the original
input list; when no choice is selected, `pick` returns the no-selection
failure instead. -/
theorem confirm_returns (h : Int) (q : String) (xs : List String)
    (evs : List Event) (s : SessionState) (hxs : xs ≠ [])
    (hs : s = run h q xs evs) :
    ∀ ev, ev = Event.enter ∨ ev = Event.right →
      (step1 h q s ev).outcome = .confirmed ∧
      (∀ c, s.selectedChoice = some c →
        pickReturn (step1 h q s ev) = .ok (c.value, c.id) ∧
        c ∈ (step1 h q s ev).choices ∧ c.selected = true ∧
        c.hidden = false ∧ xs.get? c.id = some c.value) ∧
      (s.selectedChoice = none →
        pickReturn (step1 h q s ev) = .error .errNoChoiceSelected) := by
  subst hs
  obtain ⟨_, i2, _, _, i5, i6⟩ := run_inv h q xs evs hxs
  have main : ∀ ev, ev = Event.enter ∨ ev = Event.right →
      step1 h q (run h q xs evs) ev =
        { run h q xs evs with outcome := .confirmed } := by
    intro ev hev
    rcases hev with rfl | rfl
    · rfl
    · rfl
  intro ev hev
  rw [main ev hev]
  refine ⟨rfl, ?_, ?_⟩
  · intro c hc
    by_cases hab : (run h q xs evs).outcome = .aborted
    · have hnone := i5 hab
      rw [hnone] at hc
      exact absurd hc (fun hh => Option.noConfusion hh)
    · obtain ⟨hsel, _⟩ := i6 hab
      obtain ⟨hm, hsl, hh⟩ := hsel c hc
      obtain ⟨k, hk⟩ := List.mem_iff_get?.1 hm
      obtain ⟨hid, hval⟩ := i2 k c hk
      refine ⟨pickReturn_some _ c hc, hm, hsl, hh, ?_⟩
      rw [hid]
      exact hval
  · intro hc
    exact pickReturn_none _ hc

theorem confirm_returns_witness :
    ((["a", "b", "c"] : List String) ≠ [] ∧
      run 24 "Pick:" ["a", "b", "c"] [.down, .down] =
        run 24 "Pick:" ["a", "b", "c"] [.down, .down] ∧
      (Event.enter = Event.enter ∨ Event.enter = Event.right)) ∧
    ((step1 24 "Pick:" (run 24 "Pick:" ["a", "b", "c"] [.down, .down])
        Event.enter).outcome = .confirmed ∧
      (∀ c, (run 24 "Pick:" ["a", "b", "c"] [.down, .down]).selectedChoice =
          some c →
        pickReturn (step1 24 "Pick:"
            (run 24 "Pick:" ["a", "b", "c"] [.down, .down]) Event.enter) =
          .ok (c.value, c.id) ∧
        c ∈ (step1 24 "Pick:"
            (run 24 "Pick:" ["a", "b", "c"] [.down, .down]) Event.enter).choices ∧
        c.selected = true ∧ c.hidden = false ∧
        (["a", "b", "c"] : List String).get? c.id = some c.value) ∧
      ((run 24 "Pick:" ["a", "b", "c"] [.down, .down]).selectedChoice = none →
        pickReturn (step1 24 "Pick:"
            (run 24 "Pick:" ["a", "b", "c"] [.down, .down]) Event.enter) =
          .error .errNoChoiceSelected)) :=
  ⟨⟨by decide, rfl, Or.inl rfl⟩,
    confirm_returns 24 "Pick:" ["a", "b", "c"] [.down, .down]
      (run 24 "Pick:" ["a", "b", "c"] [.down, .down]) (by decide) rfl
      Event.enter (Or.inl rfl)⟩

/-- C8 (counterexample): pressing `q` on the initial state for
`["x", "y"]` does not terminate the session with outcome Aborted — the
loop keeps running (outcome stays Pending), because in `choice.go` the
rune `q` falls into the search-query branch, not the abort branch. -/
theorem rune_q_not_abort :
    (step1 24 "Pick:" (initState ["x", "y"]) (.rune 'q')).outcome =
      Outcome.pending ∧ Outcome.pending ≠ Outcome.aborted := by
  constructor
  · decide
  · decide

/-- C8 (amended): pressing Escape, Ctrl-C, or Left clears the selection
and terminates the session with outcome Aborted, after which `pick`
returns the no-selection failure — regardless of which choice was selected
before the abort; pressing `q` does not abort: it is treated as a
printable character and appended to the search query, the session staying
pending. -/
theorem abort_keys (h : Int) (q : String) (xs : List String)
    (evs : List Event) (s : SessionState) (hs : s = run h q xs evs)
    (hp : s.outcome = .pending) :
    (∀ ev, ev = Event.escape ∨ ev = Event.ctrlC ∨ ev = Event.left →
      (step1 h q s ev).selectedChoice = none ∧
      (step1 h q s ev).outcome = .aborted ∧
      pickReturn (step1 h q s ev) = .error .errNoChoiceSelected) ∧
    ((step1 h q s (.rune 'q')).outcome = .pending ∧
      (step1 h q s (.rune 'q')).searchQuery = s.searchQuery.push 'q') := by
  constructor
  · intro ev hev
    rcases hev with rfl | rfl | rfl
    · exact ⟨rfl, rfl, pickReturn_none _ rfl⟩
    · exact ⟨rfl, rfl, pickReturn_none _ rfl⟩
    · exact ⟨rfl, rfl, pickReturn_none _ rfl⟩
  · constructor
    · show (applyMove _ (moveUp _ _)).outcome = .pending
      cases hmv : moveUp (applyQuery s.choices (s.searchQuery.push 'q'))
          ((applyQuery s.choices (s.searchQuery.push 'q')).length : Int) with
      | ok cs ret => exact hp
      | panicked => exact hp
    · show (applyMove _ (moveUp _ _)).searchQuery = s.searchQuery.push 'q'
      cases hmv : moveUp (applyQuery s.choices (s.searchQuery.push 'q'))
          ((applyQuery s.choices (s.searchQuery.push 'q')).length : Int) with
      | ok cs ret => rfl
      | panicked => rfl

theorem abort_keys_witness :
    (initState ["x", "y"] = run 24 "Pick:" ["x", "y"] [] ∧
      (initState ["x", "y"]).outcome = .pending) ∧
    ((∀ ev, ev = Event.escape ∨ ev = Event.ctrlC ∨ ev = Event.left →
      (step1 24 "Pick:" (initState ["x", "y"]) ev).selectedChoice = none ∧
      (step1 24 "Pick:" (initState ["x", "y"]) ev).outcome = .aborted ∧
      pickReturn (step1 24 "Pick:" (initState ["x", "y"]) ev) =
        .error .errNoChoiceSelected) ∧
    ((step1 24 "Pick:" (initState ["x", "y"]) (.rune 'q')).outcome =
        .pending ∧
      (step1 24 "Pick:" (initState ["x", "y"]) (.rune 'q')).searchQuery =
        (initState ["x", "y"]).searchQuery.push 'q')) :=
  ⟨⟨rfl, by decide⟩,
    abort_keys 24 "Pick:" ["x", "y"] [] (initState ["x", "y"]) rfl (by decide)⟩

/-- C4 (code bug, failing input): terminal height 5, one-line prompt
(capacity 4), ten choices ids 0..9.  With the selected id 4 the claim
demands the window `[1, 2, 3, 4]` with the selected item on the last drawn
row and nothing else drawn; the old `render` instead puts ids 2, 3, 4, 5 on
the four choice rows — the selected id 4 sits on row 3, not the last row,
and id 5, outside the claimed window, is drawn.  With the selected id 3 —
which fits within the first `capacity` rows — the claim demands the window
to start at the first choice, yet the first drawn choice is id 1, not
id 0. -/
theorem render_window_mismatch :
    ((renderOnScreen 5 "Pick:" (mkChoices tenValues) 4).map
        (fun p => (p.1, p.2.id)) = [(1, 2), (2, 3), (3, 4), (4, 5)]) ∧
    (((render 5 "Pick:" (mkChoices tenValues) 3).map
        (fun p => (p.1, p.2.id))).head? = some (1, 1)) := by
  constructor
  · decide
  · decide

end GoChoice
